import Mathlib

/-!
Verification development for the Task Rover kanban board.

The definitions below are a shallow embedding of the task-state core of the
repository: the quick-add shorthand parser (`parseInput` in `src/board.js`
and in `src/unnamed/part_001`), the task CRUD operations and undo
bookkeeping (`addTask`, `saveTask`, `moveTask`, `deleteCurrentTask`), the
stats aggregation (`src/unnamed/part_000`), and the localStorage
persistence (`persistTasks` / `loadTasks`).

JavaScript strings are modelled as `List Char`; `undefined` optional fields
are modelled as `Option`; `Date.now()` is modelled as an explicit `Nat`
parameter supplied to each create operation; JSON values are modelled by an
inductive `Json` type, with `JSON.stringify` omitting `undefined`-valued
keys exactly as the engine does.
-/

namespace Rover

/-! ## Data model

A task record as built by `addTask` in `src/board.js` and read back from
storage.  `status` is a plain string: the source never constrains it to the
enum, and an absent status is modelled by the empty string (in the source
both `undefined` and `""` are falsy and are treated identically by the one
place that inspects status loosely, `task.status || "unknown"`). -/

structure Task where
  id : String
  title : String
  due : Option String
  priority : Option String
  status : String
  owner : Option String
  createdAt : Nat
  deriving DecidableEq

/-! ## Shorthand parser

Embedding of `parseInput` and of the JS regexp/string primitives it uses:
`input.match(/@((?:19|20)\d\d-[01]\d-[0-3]\d)/)`, `input.match(/!+/)`,
`title.replace(matchedText, "")` and `String.prototype.trim`. -/

/-- The year prefix alternative `(?:19|20)` of the due-date regexp. -/
def isYearPrefix (a b : Char) : Bool :=
  (a == '1' && b == '9') || (a == '2' && b == '0')

/-- The character class `[01]` constraining the first month digit. -/
def isMonthStart (c : Char) : Bool :=
  c == '0' || c == '1'

/-- The character class `[0-3]` constraining the first day digit. -/
def isDayStart (c : Char) : Bool :=
  c == '0' || c == '1' || c == '2' || c == '3'

/-- Shape of the 10-character capture group
`(?:19|20)\d\d-[01]\d-[0-3]\d`: exactly ten characters, year in the 19xx or
20xx centuries, month digits `[01]\d`, day digits `[0-3]\d`. -/
def dueShape (cap : List Char) : Bool :=
  match cap with
  | [a, b, c, d, h1, m, n, h2, p, q] =>
    isYearPrefix a b && c.isDigit && d.isDigit && h1 == '-' &&
      isMonthStart m && n.isDigit && h2 == '-' && isDayStart p && q.isDigit
  | _ => false

/-- Attempt of the due-date regexp anchored at the head of the list: a
literal `@` followed by ten characters of `dueShape`.  Returns the capture
group on success. -/
def dueMatchAt (l : List Char) : Option (List Char) :=
  match l with
  | c :: rest =>
      if c == '@' && dueShape (rest.take 10) then some (rest.take 10) else none
  | [] => none

/-- Leftmost match of the due-date regexp, as `input.match(...)` computes
it: the first position at which `dueMatchAt` succeeds.  Returns the capture
group. -/
def findDue : List Char → Option (List Char)
  | [] => none
  | c :: rest =>
    match dueMatchAt (c :: rest) with
    | some cap => some cap
    | none => findDue rest

/-- Whether `pat` is an initial segment of `l`. -/
def beginsWith : List Char → List Char → Bool
  | [], _ => true
  | _ :: _, [] => false
  | p :: ps, c :: cs => p == c && beginsWith ps cs

/-- JavaScript `s.replace(pat, "")` for a plain string pattern: delete the
first occurrence of `pat`; if `pat` does not occur, return `s` unchanged. -/
def replaceFirst (s pat : List Char) : List Char :=
  match s with
  | [] => []
  | c :: rest =>
    if beginsWith pat (c :: rest) then (c :: rest).drop pat.length
    else c :: replaceFirst rest pat

/-- Number of leading `!` characters. -/
def leadingBangs : List Char → Nat
  | [] => 0
  | c :: r => if c == '!' then leadingBangs r + 1 else 0

/-- Leftmost match of `/!+/`, as `input.match(/!+/)` computes it: the
length of the first maximal run of `!` characters, if any. -/
def firstBangs : List Char → Option Nat
  | [] => none
  | c :: r => if c == '!' then some (leadingBangs r + 1) else firstBangs r

/-- Whitespace predicate used to model `String.prototype.trim`. -/
def isWs (c : Char) : Bool :=
  c == ' ' || c == '\t' || c == '\n' || c == '\r'

/-- JavaScript `s.trim()`: strip leading and trailing whitespace. -/
def trimChars (s : List Char) : List Char :=
  ((s.dropWhile isWs).reverse.dropWhile isWs).reverse

/-- The priority string assigned from a `!` run length by the cascade
`if (count === 1) ... if (count === 2) ... if (count >= 3) ...`; only run
lengths of at least one arise, since `/!+/` matches one or more. -/
def priorityOf (n : Nat) : String :=
  if n = 1 then "high" else if n = 2 then "medium" else "low"

/-- Result record of the shorthand parser. -/
structure ParseResult where
  title : List Char
  due : Option (List Char)
  priority : Option String
  deriving DecidableEq

namespace Board

/-- Due-date phase of `parseInput` in `src/board.js` (lines 221-239): match
the due regexp against `input`, and on success delete the whole matched
token (the `@` plus the capture) from the running title. -/
def dueStage (input : List Char) : List Char × Option (List Char) :=
  match findDue input with
  | some cap => (replaceFirst input ('@' :: cap), some cap)
  | none => (input, none)

/-- Priority phase of `parseInput` in `src/board.js`: match `/!+/` against
`input` (the original input, not the reduced title), map the run length
through the priority cascade, and delete the first occurrence of the
matched run text from the running title. -/
def priStage (input title : List Char) : List Char × Option String :=
  match firstBangs input with
  | some n => (replaceFirst title (List.replicate n '!'), some (priorityOf n))
  | none => (title, none)

/-- The shorthand parser `parseInput` of `src/board.js`: due phase, then
priority phase, then trim. -/
def parseInput (input : List Char) : ParseResult :=
  let s1 := dueStage input
  let s2 := priStage input s1.1
  { title := trimChars s2.1, due := s1.2, priority := s2.2 }

end Board

namespace App

/-- Due-date phase of `parseInput` in `src/unnamed/part_001` (lines
135-159); the code is character-for-character the same logic as the board
page's copy. -/
def dueStage (input : List Char) : List Char × Option (List Char) :=
  match findDue input with
  | some cap => (replaceFirst input ('@' :: cap), some cap)
  | none => (input, none)

/-- Priority phase of `parseInput` in `src/unnamed/part_001`; as on the
board page, `/!+/` is matched against the original `input`. -/
def priStage (input title : List Char) : List Char × Option String :=
  match firstBangs input with
  | some n => (replaceFirst title (List.replicate n '!'), some (priorityOf n))
  | none => (title, none)

/-- The shorthand parser `parseInput` of `src/unnamed/part_001`. -/
def parseInput (input : List Char) : ParseResult :=
  let s1 := dueStage input
  let s2 := priStage input s1.1
  { title := trimChars s2.1, due := s1.2, priority := s2.2 }

end App

/-! ## Stats aggregation (src/unnamed/part_000, lines 61-74) -/

/-- The bucket key chosen for a task by `task.status || "unknown"`: the
status string itself when it is truthy (non-empty), `"unknown"` when it is
falsy (absent or empty). -/
def statusKey (t : Task) : String :=
  if t.status = "" then "unknown" else t.status

/-- The by-status aggregation `statusCounts` of the stats page, modelled as
the function from bucket key to count built by the fold
`statusCounts[status] = (statusCounts[status] || 0) + 1`. -/
def statusCounts (ts : List Task) : String → Nat :=
  ts.foldl (fun m t => fun k => if k = statusKey t then m k + 1 else m k)
    (fun _ => 0)

/-! ## Persistence (src/board.js lines 124-142, src/unnamed/part_000 lines 52-59)

The `tasks` storage slot holds a string; `persistTasks` writes
`JSON.stringify(tasks)` and `loadTasks` reads it back with `JSON.parse`
inside `try`/`catch`, falling back to `[]` when the slot is absent or the
parse throws.  JSON values are modelled by the inductive `Json`;
`JSON.stringify` omits object keys whose value is `undefined`, which is how
absent optional task fields serialize. -/

/-- A JSON value.  Numbers are restricted to naturals, which covers every
number the task records store (`createdAt` timestamps). -/
inductive Json where
  | null
  | str (s : String)
  | num (n : Nat)
  | arr (elems : List Json)
  | obj (fields : List (String × Json))

/-- Serialization of one optional string field: present fields become a
string member, absent (`undefined`) fields are omitted by
`JSON.stringify`. -/
def optField (k : String) : Option String → List (String × Json)
  | some v => [(k, Json.str v)]
  | none => []

/-- JSON object produced by `JSON.stringify` for one task record, with the
members in the insertion order of `addTask` in `src/board.js`. -/
def encodeTask (t : Task) : Json :=
  Json.obj ([("id", Json.str t.id), ("title", Json.str t.title)]
    ++ optField "due" t.due ++ optField "priority" t.priority
    ++ [("status", Json.str t.status)] ++ optField "owner" t.owner
    ++ [("createdAt", Json.num t.createdAt)])

/-- The serialized form of the whole collection: a JSON array of task
objects, as written by `persistTasks`. -/
def encodeTasks (ts : List Task) : Json :=
  Json.arr (ts.map encodeTask)

/-- JavaScript property access `obj[k]` on a parsed JSON object: the value
of the first member named `k`, if any. -/
def getField (fs : List (String × Json)) (k : String) : Option Json :=
  (fs.find? (fun kv => kv.1 == k)).map (fun kv => kv.2)

/-- Reading an optional string field from a parsed object: a missing key
reads as absent, a string member reads as present. -/
def optStr : Option Json → Option (Option String)
  | none => some none
  | some (Json.str s) => some (some s)
  | _ => none

/-- Reconstruction of one task record from a parsed JSON value, the way the
pages read the fields back (`task.id`, `task.title`, `task.due`, ...).
Fails on values that are not an object carrying the required members. -/
def decodeTask : Json → Option Task
  | Json.obj fs =>
    match getField fs "id", getField fs "title", getField fs "status",
        getField fs "createdAt", optStr (getField fs "due"),
        optStr (getField fs "priority"), optStr (getField fs "owner") with
    | some (Json.str i), some (Json.str ti), some (Json.str st),
      some (Json.num ca), some du, some pr, some ow =>
        some { id := i, title := ti, due := du, priority := pr,
               status := st, owner := ow, createdAt := ca }
    | _, _, _, _, _, _, _ => none
  | _ => none

/-- Reconstruction of a task list from a list of parsed JSON values. -/
def decodeList : List Json → Option (List Task)
  | [] => some []
  | j :: js =>
    match decodeTask j, decodeList js with
    | some t, some ts => some (t :: ts)
    | _, _ => none

/-- Reconstruction of the whole collection: requires a JSON array whose
elements all decode as task records. -/
def decodeTasks : Json → Option (List Task)
  | Json.arr xs => decodeList xs
  | _ => none

/-- The possible conditions of the `taskRoverTasks` storage slot at load
time: absent, present but not parseable as JSON (so that `JSON.parse`
throws), or present and parsing to the JSON value `j`. -/
inductive StoredSlot where
  | absent
  | unparseable
  | parsed (j : Json)

/-- The `tasks` value produced by `loadTasks` in `src/board.js` (lines
124-131) and by the identical loader of the stats page:
`stored ? JSON.parse(stored) : []` inside `try`, with `catch` resetting to
`[]`.  Note that a successfully parsed value is adopted verbatim, with no
validation of its shape. -/
def loadTasks : StoredSlot → Json
  | StoredSlot.absent => Json.arr []
  | StoredSlot.unparseable => Json.arr []
  | StoredSlot.parsed j => j

/-! ## Task CRUD and undo bookkeeping (src/board.js)

The mutations of the board page, modelled as operations on an explicit
state.  `Date.now()` is an explicit parameter of the create operation; the
grace-window timer is not part of the state, only the state effect of the
undo actions is modelled (clicking Undo while the toast is shown runs the
recorded closure). -/

/-- The argument record of `addTask` (board.js lines 244-257), as assembled
by `saveTask`. -/
structure TaskData where
  title : String
  due : Option String
  priority : Option String
  status : String
  owner : Option String
  deriving DecidableEq

/-- The task record built by `addTask`: fresh `id` from
`Date.now().toString()`, `createdAt` from `Date.now()`, and
`owner: data.owner || ""`. -/
def mkTask (d : TaskData) (now : Nat) : Task :=
  { id := Nat.repr now, title := d.title, due := d.due,
    priority := d.priority, status := d.status,
    owner := some (d.owner.getD ""), createdAt := now }

/-- The fields `saveTask` overwrites when editing an existing task
(board.js lines 474-484). -/
structure Patch where
  title : String
  due : Option String
  owner : String
  status : String
  priority : Option String
  deriving DecidableEq

/-- Application of an edit to a task record: `saveTask` assigns `title`,
`due`, `owner`, `status` and `priority`, and never touches `id` or
`createdAt`. -/
def applyPatch (p : Patch) (t : Task) : Task :=
  { t with title := p.title, due := p.due, owner := some p.owner,
           status := p.status, priority := p.priority }

/-- State owned by the board page: the live collection plus the pending
delete tombstone (removed task and its original index), captured by the
undo closure of `deleteCurrentTask`. -/
structure BoardState where
  tasks : List Task
  tomb : Option (Task × Nat)
  deriving DecidableEq

/-- The mutations of the board page.  `create` carries the `Date.now()`
value observed during the call; `moveUndo` is the undo action armed by a
move to `done`; `undoDel` is the undo action armed by a delete. -/
inductive Op where
  | create (d : TaskData) (now : Nat)
  | update (id : String) (p : Patch)
  | move (id : String) (st : String)
  | moveUndo (id : String)
  | del (id : String)
  | undoDel
  deriving DecidableEq

/-- Mutation of the first list element satisfying `p`, as
`tasks.find(...)` followed by in-place assignment performs it. -/
def modifyFirst (p : Task → Bool) (f : Task → Task) : List Task → List Task
  | [] => []
  | t :: ts => if p t then f t :: ts else t :: modifyFirst p f ts

/-- Removal of the first list element satisfying `p`, as
`tasks.findIndex(...)` followed by `tasks.splice(idx, 1)` performs it:
returns the removed element, its index, and the remaining list. -/
def removeFirst (p : Task → Bool) : List Task → Option (Task × Nat × List Task)
  | [] => none
  | t :: ts =>
    if p t then some (t, 0, ts)
    else (removeFirst p ts).map (fun x => (x.1, x.2.1 + 1, t :: x.2.2))

/-- Insertion at an index, as `tasks.splice(idx, 0, removed)` performs it
(an index at or beyond the length appends at the end). -/
def insertAt : Nat → Task → List Task → List Task
  | 0, x, ts => x :: ts
  | _ + 1, x, [] => [x]
  | i + 1, x, t :: ts => t :: insertAt i x ts

/-- One mutation step of the board page state:
`addTask` appends the new record and persists; `saveTask` (edit) and
`moveTask` assign fields of the first record with the given id;
`moveTask` to `done` arms an undo that assigns status `doing`;
`deleteCurrentTask` splices the record out and retains the tombstone;
its undo splices the tombstoned record back at its original index. -/
def applyOp (s : BoardState) : Op → BoardState
  | Op.create d now => { s with tasks := s.tasks ++ [mkTask d now] }
  | Op.update i p =>
      { s with tasks := modifyFirst (fun t => t.id == i) (applyPatch p) s.tasks }
  | Op.move i st =>
      { s with
        tasks := modifyFirst (fun t => t.id == i) (fun t => { t with status := st }) s.tasks }
  | Op.moveUndo i =>
      { s with
        tasks := modifyFirst (fun t => t.id == i) (fun t => { t with status := "doing" }) s.tasks }
  | Op.del i =>
      match removeFirst (fun t => t.id == i) s.tasks with
      | some x => { tasks := x.2.2, tomb := some (x.1, x.2.1) }
      | none => s
  | Op.undoDel =>
      match s.tomb with
      | some x => { tasks := insertAt x.2 x.1 s.tasks, tomb := none }
      | none => s

/-- A sequence of mutations applied in order. -/
def applyOps (s : BoardState) (ops : List Op) : BoardState :=
  ops.foldl applyOp s

/-- The state of a fresh session with an empty storage slot. -/
def initState : BoardState :=
  { tasks := [], tomb := none }

/-- Whether the `Date.now()` values observed by the create operations of a
trace are strictly increasing, starting above `c`. -/
def createsIncreasing : Nat → List Op → Bool
  | _, [] => true
  | c, op :: rest =>
    match op with
    | Op.create _ now => decide (c < now) && createsIncreasing now rest
    | _ => createsIncreasing c rest

/-- The last create timestamp of a trace (or the starting value `c` when
the trace has no create). -/
def clockAfter : Nat → List Op → Nat
  | c, [] => c
  | c, op :: rest =>
    match op with
    | Op.create _ now => clockAfter now rest
    | _ => clockAfter c rest

/-- The ids of a task list, in order. -/
def idsOf (ts : List Task) : List String :=
  ts.map Task.id

/-- An id that reads back as some timestamp at most `c`. -/
def isStamp (c : Nat) (i : String) : Prop :=
  ∃ n, n ≤ c ∧ Nat.repr n = i

/-- Id bookkeeping invariant of the board state at clock `c`: live ids are
pairwise distinct timestamps at most `c`, and a pending tombstone holds a
timestamp id not currently live. -/
def InvIds (c : Nat) (s : BoardState) : Prop :=
  (idsOf s.tasks).Nodup ∧ (∀ i ∈ idsOf s.tasks, isStamp c i) ∧
  (∀ t k, s.tomb = some (t, k) → t.id ∉ idsOf s.tasks ∧ isStamp c t.id)

/-- Lookup of a task by id, as `tasks.find((t) => t.id === id)`. -/
def findTask (ts : List Task) (i : String) : Option Task :=
  ts.find? (fun t => t.id == i)

/-! ## Decimal value of a digit string

Helpers used to show that `Nat.repr` (the source's
`Date.now().toString()`) is injective. -/

/-- Value of a decimal digit character. -/
def digitVal (c : Char) : Nat :=
  c.toNat - 48

/-- Value of a most-significant-first decimal digit string. -/
def decVal (l : List Char) : Nat :=
  l.foldl (fun a c => a * 10 + digitVal c) 0

/-! ## Sample records used by concrete witnesses and counterexamples -/

/-- A task whose status is a non-empty string outside the status enum. -/
def blockedTask : Task :=
  { id := "1", title := "t", due := none, priority := none,
    status := "blocked", owner := none, createdAt := 0 }

/-- A plain create payload. -/
def sampleData : TaskData :=
  { title := "a", due := none, priority := none, status := "todo", owner := none }

/-- A plain task sitting in the To Do column. -/
def todoTask : Task :=
  { id := "7", title := "w", due := none, priority := none,
    status := "todo", owner := some "", createdAt := 7 }

/-- The month value named by the claim about due-date capture: the two
month digits of a capture group read as a number between 01 and 12.  This
formalizes the claim's wording, to be compared with what the code's
pattern `[01]\d` actually accepts. -/
def monthShaped01to12 (cap : List Char) : Bool :=
  let m := 10 * digitVal (cap.getD 5 ' ') + digitVal (cap.getD 6 ' ')
  decide (1 ≤ m) && decide (m ≤ 12)

namespace SpecOrder

/-- Modelled from the spec: the parser as the spec's order-of-removal
sentence describes it, with the priority run searched in the title
remaining after due removal rather than in the original input.  This is
the comparison definition for the refinement claim about token-resolution
order; everything else matches the code. -/
def parseQuickAdd (input : List Char) : ParseResult :=
  let s1 := Board.dueStage input
  let s2 := Board.priStage s1.1 s1.1
  { title := trimChars s2.1, due := s1.2, priority := s2.2 }

end SpecOrder

/-! ## Helper lemmas -/

theorem decodeTask_encodeTask (t : Task) : decodeTask (encodeTask t) = some t := by
  obtain ⟨i, ti, du, pr, st, ow, ca⟩ := t
  cases du <;> cases pr <;> cases ow <;> rfl

theorem statusCounts_foldl (ts : List Task) (m : String → Nat) (k : String) :
    (ts.foldl (fun m t => fun k2 => if k2 = statusKey t then m k2 + 1 else m k2) m) k
      = m k + (ts.map statusKey).count k := by
  induction ts generalizing m with
  | nil => simp
  | cons t rest ih =>
      simp only [List.foldl, List.map]
      rw [ih]
      by_cases h : k = statusKey t
      · subst h
        rw [if_pos rfl, List.count_cons_self]
        omega
      · rw [if_neg h, List.count_cons_of_ne (fun hc => h (by simpa using hc))]

theorem statusCounts_eq_count (ts : List Task) (k : String) :
    statusCounts ts k = (ts.map statusKey).count k := by
  have h := statusCounts_foldl ts (fun _ => 0) k
  simpa [statusCounts] using h

theorem removeFirst_insertAt (p : Task → Bool) :
    ∀ ts t i rest, removeFirst p ts = some (t, i, rest) → insertAt i t rest = ts := by
  intro ts
  induction ts with
  | nil => intro t i rest h; simp [removeFirst] at h
  | cons t0 ts0 ih =>
      intro t i rest h
      by_cases hp : p t0
      · simp only [removeFirst, if_pos hp, Option.some.injEq, Prod.mk.injEq] at h
        obtain ⟨h1, h2, h3⟩ := h
        subst h1; subst h2; subst h3
        rfl
      · simp only [removeFirst, if_neg hp] at h
        cases hr : removeFirst p ts0 with
        | none => rw [hr] at h; exact absurd h (by simp)
        | some x =>
            obtain ⟨a, b, c⟩ := x
            rw [hr] at h
            simp only [Option.map, Option.some.injEq, Prod.mk.injEq] at h
            obtain ⟨h1, h2, h3⟩ := h
            subst h1; subst h2; subst h3
            have := ih a b c hr
            simpa [insertAt] using this

theorem removeFirst_isSome_of_mem (p : Task → Bool) :
    ∀ ts, (∃ t ∈ ts, p t = true) → (removeFirst p ts).isSome := by
  intro ts
  induction ts with
  | nil => rintro ⟨t, ht, _⟩; simp at ht
  | cons t0 ts0 ih =>
      rintro ⟨t, ht, hpt⟩
      by_cases hp : p t0
      · simp [removeFirst, hp]
      · rcases List.mem_cons.mp ht with h0 | h0
        · subst h0; exact absurd hpt hp
        · have := ih ⟨t, h0, hpt⟩
          rcases Option.isSome_iff_exists.mp this with ⟨x, hx⟩
          simp [removeFirst, hp, hx]

theorem findTask_modifyFirst (i : String) (f : Task → Task)
    (hf : ∀ t, (f t).id = t.id) :
    ∀ ts, findTask (modifyFirst (fun t => t.id == i) f ts) i = (findTask ts i).map f := by
  intro ts
  induction ts with
  | nil => rfl
  | cons t0 ts0 ih =>
      cases h : t0.id == i with
      | true =>
          have h2 : ((f t0).id == i) = true := by rw [hf t0]; exact h
          simp [findTask, modifyFirst, List.find?, h, h2]
      | false =>
          have h2 : ((f t0).id == i) = false := by rw [hf t0]; exact h
          simpa [findTask, modifyFirst, List.find?, h, h2] using ih

theorem beginsWith_iff_take (pat : List Char) :
    ∀ l, beginsWith pat l = true ↔ l.take pat.length = pat := by
  induction pat with
  | nil => intro l; simp [beginsWith]
  | cons p ps ih =>
      intro l
      cases l with
      | nil => simp [beginsWith]
      | cons c cs =>
          simp only [beginsWith, List.length_cons, List.take_succ_cons,
            Bool.and_eq_true, beq_iff_eq, List.cons.injEq, ih cs]
          constructor
          · rintro ⟨h1, h2⟩; exact ⟨h1.symm, h2⟩
          · rintro ⟨h1, h2⟩; exact ⟨h1.symm, h2⟩

theorem beginsWith_self_append (pat t : List Char) :
    beginsWith pat (pat ++ t) = true :=
  (beginsWith_iff_take pat (pat ++ t)).mpr (List.take_left pat t)

theorem beginsWith_take_eq (pat l : List Char) (h : beginsWith pat l = true) :
    l.take pat.length = pat :=
  (beginsWith_iff_take pat l).mp h

theorem findDue_none_drop (s : List Char) (h : findDue s = none) :
    ∀ i, dueMatchAt (s.drop i) = none := by
  induction s with
  | nil => intro i; rw [List.drop_nil]; rfl
  | cons c rest ih =>
      intro i
      rw [findDue] at h
      cases hm : dueMatchAt (c :: rest) with
      | some cap => rw [hm] at h; exact absurd h (by simp)
      | none =>
          rw [hm] at h
          cases i with
          | zero => simpa using hm
          | succ j => simpa using ih h j

theorem findDue_some_drop (s cap : List Char) (h : findDue s = some cap) :
    ∃ i, dueMatchAt (s.drop i) = some cap ∧
      ∀ j, j < i → dueMatchAt (s.drop j) = none := by
  induction s with
  | nil => simp [findDue] at h
  | cons c rest ih =>
      rw [findDue] at h
      cases hm : dueMatchAt (c :: rest) with
      | some cap2 =>
          rw [hm] at h
          refine ⟨0, ?_, fun j hj => absurd hj (by omega)⟩
          simpa using hm.trans h
      | none =>
          rw [hm] at h
          obtain ⟨i, h1, h2⟩ := ih h
          refine ⟨i + 1, by simpa using h1, ?_⟩
          intro j hj
          cases j with
          | zero => simpa using hm
          | succ j2 => simpa using h2 j2 (by omega)

theorem dueShape_length (cap : List Char) (h : dueShape cap = true) :
    cap.length = 10 := by
  unfold dueShape at h
  split at h
  · simp_all
  · exact absurd h (by simp)

theorem dueMatchAt_some (l cap : List Char) (h : dueMatchAt l = some cap) :
    dueShape cap = true ∧ beginsWith ('@' :: cap) l = true := by
  cases l with
  | nil => simp [dueMatchAt] at h
  | cons c rest =>
      rw [dueMatchAt] at h
      by_cases hc : (c == '@' && dueShape (rest.take 10)) = true
      · rw [if_pos hc] at h
        obtain ⟨hat, hshape⟩ := Bool.and_eq_true_iff.mp hc
        have hc2 : c = '@' := by simpa using hat
        subst hc2
        have heq : cap = rest.take 10 := by simpa using h.symm
        rw [heq]
        refine ⟨hshape, ?_⟩
        have h10 : (rest.take 10).length = 10 := dueShape_length _ hshape
        simp only [beginsWith, beq_self_eq_true, Bool.true_and]
        exact (beginsWith_iff_take (rest.take 10) rest).mpr (by rw [h10])
      · rw [if_neg hc] at h
        exact absurd h (by simp)

theorem dueMatchAt_of_beginsWith (l cap : List Char) (hshape : dueShape cap = true)
    (h : beginsWith ('@' :: cap) l = true) : dueMatchAt l = some cap := by
  cases l with
  | nil => simp [beginsWith] at h
  | cons c rest =>
      simp only [beginsWith, Bool.and_eq_true, beq_iff_eq] at h
      obtain ⟨rfl, hbw⟩ := h
      have h10 : cap.length = 10 := dueShape_length _ hshape
      have htake : rest.take 10 = cap := by
        have := beginsWith_take_eq cap rest hbw
        rwa [h10] at this
      rw [dueMatchAt, htake]
      simp [hshape]

theorem replaceFirst_at (pat : List Char) :
    ∀ s i, (∀ j, j < i → beginsWith pat (s.drop j) = false) →
      beginsWith pat (s.drop i) = true →
      replaceFirst s pat = s.take i ++ (s.drop i).drop pat.length := by
  intro s
  induction s with
  | nil =>
      intro i h0 h1
      rw [List.drop_nil] at h1
      have hp : pat = [] := by
        have := beginsWith_take_eq pat [] h1
        simpa using this.symm
      subst hp
      simp [replaceFirst]
  | cons c rest ih =>
      intro i h0 h1
      cases i with
      | zero =>
          rw [List.drop_zero] at h1
          rw [replaceFirst, if_pos h1]
          simp
      | succ i2 =>
          have hb0 : beginsWith pat (c :: rest) = false := by
            have := h0 0 (by omega)
            simpa using this
          rw [replaceFirst, if_neg (by simp [hb0])]
          have hrec := ih i2
            (fun j hj => by simpa using h0 (j + 1) (by omega))
            (by simpa using h1)
          rw [hrec]
          simp

theorem leadingBangs_replicate_append (m : Nat) (b : List Char) :
    leadingBangs (List.replicate m '!' ++ b) = m + leadingBangs b := by
  induction m with
  | zero => simp
  | succ k ih =>
      rw [List.replicate_succ, List.cons_append, leadingBangs]
      simp only [beq_self_eq_true, if_pos, ih]
      omega

theorem leadingBangs_of_head_ne (b : List Char) (hb : b.head? ≠ some '!') :
    leadingBangs b = 0 := by
  cases b with
  | nil => rfl
  | cons c r =>
      have hc : c ≠ '!' := fun h => hb (by rw [h]; rfl)
      simp [leadingBangs, hc]

theorem firstBangs_spec (a b : List Char) (n : Nat) (ha : '!' ∉ a)
    (hb : b.head? ≠ some '!') (hn : 1 ≤ n) :
    firstBangs (a ++ (List.replicate n '!' ++ b)) = some n := by
  induction a with
  | nil =>
      simp only [List.nil_append]
      cases n with
      | zero => omega
      | succ m =>
          rw [List.replicate_succ, List.cons_append, firstBangs]
          simp only [beq_self_eq_true, if_pos]
          rw [leadingBangs_replicate_append, leadingBangs_of_head_ne b hb]
  | cons c a2 ih =>
      have hc : c ≠ '!' := fun h => ha (by rw [h]; exact List.mem_cons_self _ _)
      rw [List.cons_append, firstBangs, if_neg (by simp [hc])]
      exact ih (fun h => ha (List.mem_cons_of_mem c h))

theorem firstBangs_none (s : List Char) (h : '!' ∉ s) : firstBangs s = none := by
  induction s with
  | nil => rfl
  | cons c r ih =>
      have hc : c ≠ '!' := fun hcc => h (by rw [hcc]; exact List.mem_cons_self _ _)
      rw [firstBangs, if_neg (by simp [hc])]
      exact ih (fun hm => h (List.mem_cons_of_mem c hm))

/-! ## Claim C3: due-date capture -/

/-- Claim C3 counterexample: the capture group pattern is `[01]\d` for the
month, so the code captures `@2024-13-05` (month 13) even though 13 is not
01-12 shaped, refuting the claim that only 01-12-shaped months are
captured. -/
theorem c3_due_month_counterexample :
    (Board.parseInput ("pay rent @2024-13-05".toList)).due
      = some ("2024-13-05".toList) ∧
    monthShaped01to12 ("2024-13-05".toList) = false := by
  decide

/-- Claim C3 (amended): the due capture is exactly the first substring
matching `@(19|20)\d\d-[01]\d-[0-3]\d` — so the month is only constrained
to the digit pattern `[01]\d` (00 to 19), not to the values 01-12, and the
day to `[0-3]\d`; the matched token is removed from the title at the match
position, and the date string is captured verbatim with no calendar
validity check. -/
theorem c3_due_capture_amended (s : List Char) :
    ((Board.parseInput s).due = none → ∀ i, dueMatchAt (s.drop i) = none) ∧
    (∀ cap, (Board.parseInput s).due = some cap →
      dueShape cap = true ∧
      ∃ i, dueMatchAt (s.drop i) = some cap ∧
        (∀ j, j < i → dueMatchAt (s.drop j) = none) ∧
        (Board.dueStage s).1 = s.take i ++ s.drop (i + 11)) := by
  have hdue : (Board.parseInput s).due = (Board.dueStage s).2 := rfl
  cases hf : findDue s with
  | none =>
      constructor
      · intro _ i
        exact findDue_none_drop s hf i
      · intro cap hcap
        rw [hdue] at hcap
        simp [Board.dueStage, hf] at hcap
  | some cap0 =>
      constructor
      · intro hnone
        rw [hdue] at hnone
        simp [Board.dueStage, hf] at hnone
      · intro cap hcap
        rw [hdue] at hcap
        simp only [Board.dueStage, hf] at hcap
        have hcap0 : cap = cap0 := by simpa using hcap.symm
        subst hcap0
        obtain ⟨i, hi, hj⟩ := findDue_some_drop s cap hf
        obtain ⟨hshape, hbw⟩ := dueMatchAt_some _ _ hi
        refine ⟨hshape, i, hi, hj, ?_⟩
        have h0 : ∀ j, j < i → beginsWith ('@' :: cap) (s.drop j) = false := by
          intro j hjlt
          cases hb : beginsWith ('@' :: cap) (s.drop j) with
          | false => rfl
          | true =>
              have := dueMatchAt_of_beginsWith _ _ hshape hb
              rw [hj j hjlt] at this
              exact absurd this (by simp)
        have hrep := replaceFirst_at ('@' :: cap) s i h0 hbw
        have hlen : ('@' :: cap).length = 11 := by
          rw [List.length_cons, dueShape_length cap hshape]
        have hds : (Board.dueStage s).1 = replaceFirst s ('@' :: cap) := by
          simp [Board.dueStage, hf]
        rw [hds, hrep, hlen, List.drop_drop]

/-- Claim C3 witness: the amended statement at the claim's own example of a
calendar-invalid date, `@2024-02-30`, which is captured verbatim. -/
theorem c3_due_capture_witness :
    (Board.parseInput ("x @2024-02-30".toList)).due = some ("2024-02-30".toList) ∧
    (dueShape ("2024-02-30".toList) = true ∧
     ∃ i, dueMatchAt (("x @2024-02-30".toList).drop i) = some ("2024-02-30".toList) ∧
       (∀ j, j < i → dueMatchAt (("x @2024-02-30".toList).drop j) = none) ∧
       (Board.dueStage ("x @2024-02-30".toList)).1
         = ("x @2024-02-30".toList).take i ++ ("x @2024-02-30".toList).drop (i + 11)) :=
  ⟨by decide, (c3_due_capture_amended _).2 _ (by decide)⟩

/-! ## Claim C6: order of token resolution -/

/-- Claim C6 counterexample: on `"!@2024-03-05!"` removing the due token
first would merge the two bang runs into a run of length 2 (priority
medium), but the code matches `/!+/` against the original input and
assigns priority high, so the parser does not resolve tokens as if the due
token were removed before the priority search. -/
theorem c6_token_order_counterexample :
    (Board.parseInput ("!@2024-03-05!".toList)).priority = some "high" ∧
    firstBangs (Board.dueStage ("!@2024-03-05!".toList)).1 = some 2 ∧
    priorityOf 2 = "medium" ∧
    Board.parseInput ("!@2024-03-05!".toList)
      ≠ SpecOrder.parseQuickAdd ("!@2024-03-05!".toList) := by
  decide

/-- Claim C6 (amended): the priority run the parser recognizes is the
first run of bang characters of the original input (its text is then
deleted at its first occurrence in the due-stripped title); whenever the
input has no due-date match the behaviour coincides with the spec's
remove-due-first order. -/
theorem c6_priority_source_amended (s : List Char) :
    (Board.parseInput s).priority = (firstBangs s).map priorityOf ∧
    (findDue s = none → Board.parseInput s = SpecOrder.parseQuickAdd s) := by
  constructor
  · cases hb : firstBangs s <;>
      simp [Board.parseInput, Board.priStage, hb]
  · intro h
    simp [Board.parseInput, SpecOrder.parseQuickAdd, Board.dueStage, h]

/-- Claim C6 witness: the amended statement at a concrete date-free
input. -/
theorem c6_priority_source_witness :
    findDue ("call bob !!".toList) = none ∧
    Board.parseInput ("call bob !!".toList)
      = SpecOrder.parseQuickAdd ("call bob !!".toList) :=
  ⟨by decide, (c6_priority_source_amended _).2 (by decide)⟩

/-! ## Claim C7: first bang run, mapping, and removal -/

/-- Claim C7: the parser recognizes at most the first run of consecutive
bang characters: for an input decomposed around its first such run (no
bang before it, run maximal), the priority is determined by that run's
length with 1 mapping to high, 2 to medium, and 3 or more to low; on
date-free inputs exactly that run is removed from the title, leaving any
later runs untouched; and an input with no bang yields no priority. -/
theorem c7_priority_run (s a b : List Char) (n : Nat)
    (hs : s = a ++ List.replicate n '!' ++ b)
    (ha : '!' ∉ a) (hb : b.head? ≠ some '!') (hn : 1 ≤ n) :
    (Board.parseInput s).priority = some (priorityOf n) ∧
    priorityOf 1 = "high" ∧ priorityOf 2 = "medium" ∧
    (∀ m, 3 ≤ m → priorityOf m = "low") ∧
    (findDue s = none → (Board.parseInput s).title = trimChars (a ++ b)) ∧
    (∀ s2, '!' ∉ s2 → (Board.parseInput s2).priority = none) := by
  have hfb : firstBangs s = some n := by
    rw [hs, List.append_assoc]
    exact firstBangs_spec a b n ha hb hn
  refine ⟨?_, rfl, rfl, fun m hm => ?_, ?_, fun s2 h2 => ?_⟩
  · simp [Board.parseInput, Board.priStage, hfb]
  · rw [priorityOf, if_neg (by omega), if_neg (by omega)]
  · intro hnone
    have hrep : replaceFirst s (List.replicate n '!') = a ++ b := by
      have h1 : beginsWith (List.replicate n '!') (s.drop a.length) = true := by
        rw [hs, List.append_assoc, List.drop_left]
        exact beginsWith_self_append _ _
      have h0 : ∀ j, j < a.length →
          beginsWith (List.replicate n '!') (s.drop j) = false := by
        intro j hj
        have hdj : s.drop j = a.drop j ++ (List.replicate n '!' ++ b) := by
          rw [hs, List.append_assoc]
          exact List.drop_append_of_le_length (le_of_lt hj)
        cases hd : a.drop j with
        | nil =>
            have hlen : (a.drop j).length = a.length - j := List.length_drop j a
            rw [hd] at hlen
            simp at hlen
            omega
        | cons c a3 =>
            have hcmem : c ∈ a :=
              List.mem_of_mem_drop (by rw [hd]; exact List.mem_cons_self c a3)
            have hcne : ('!' == c) = false :=
              beq_eq_false_iff_ne.mpr (fun h => ha (h ▸ hcmem))
            rw [hdj, hd]
            cases n with
            | zero => omega
            | succ m =>
                rw [List.replicate_succ, List.cons_append, beginsWith]
                simp [hcne]
      have hra := replaceFirst_at (List.replicate n '!') s a.length h0 h1
      rw [hra, hs, List.append_assoc, List.take_left, List.drop_left, List.drop_left]
    simp [Board.parseInput, Board.dueStage, Board.priStage, hnone, hfb, hrep]
  · simp [Board.parseInput, Board.priStage, firstBangs_none s2 h2]

/-- Claim C7 witness: the claim's own example `"Buy milk !"`: one-bang run
maps to high priority and exactly the run is removed before trimming. -/
theorem c7_priority_run_witness :
    (Board.parseInput ("Buy milk !".toList)).priority = some (priorityOf 1) ∧
    (Board.parseInput ("Buy milk !".toList)).title
      = trimChars ("Buy milk ".toList ++ ([] : List Char)) := by
  have h := c7_priority_run ("Buy milk !".toList) ("Buy milk ".toList) [] 1
    (by decide) (by decide) (by decide) (by decide)
  exact ⟨h.1, h.2.2.2.2.1 (by decide)⟩

/-! ## Claim C2: by-status aggregation -/

/-- Claim C2 counterexample: a task whose status is the non-empty off-enum
string `"blocked"` is counted under the key `"blocked"` itself, not under
the `"unknown"` bucket, refuting the claim that every task whose status is
not one of todo/doing/done is bucketed under `"unknown"`. -/
theorem c2_status_unknown_counterexample :
    statusCounts [blockedTask] "unknown" = 0 ∧
    statusCounts [blockedTask] "blocked" = 1 ∧
    blockedTask.status ∉ ["todo", "doing", "done"] := by
  decide

/-- Claim C2 (amended): the by-status aggregation buckets a task under
`"unknown"` exactly when its status is falsy (absent or empty); a
non-empty unrecognized status is bucketed under its own value.  Every task
is counted in exactly one bucket: the count of a key is the number of
tasks keyed to it, and the bucket counts sum to the collection size. -/
theorem c2_status_aggregation_amended (ts : List Task) :
    (∀ k, statusCounts ts k = (ts.map statusKey).count k) ∧
    ((ts.map statusKey).dedup.map (statusCounts ts)).sum = ts.length ∧
    (∀ t, t.status ≠ "" → statusKey t = t.status) ∧
    (∀ t, t.status = "" → statusKey t = "unknown") := by
  refine ⟨statusCounts_eq_count ts, ?_,
    fun t h => by simp [statusKey, h], fun t h => by simp [statusKey, h]⟩
  have hm : (ts.map statusKey).dedup.map (statusCounts ts)
      = (ts.map statusKey).dedup.map (fun k => (ts.map statusKey).count k) :=
    List.map_congr_left (fun k _ => statusCounts_eq_count ts k)
  rw [hm, List.sum_map_count_dedup_eq_length, List.length_map]

/-- Claim C2 witness: instantiation of the amended statement at the
off-enum sample task. -/
theorem c2_status_aggregation_witness :
    blockedTask.status ≠ "" ∧ statusKey blockedTask = blockedTask.status :=
  ⟨by decide, (c2_status_aggregation_amended []).2.2.1 blockedTask (by decide)⟩

/-! ## Claim C4: delete then undo restores the collection -/

/-- Claim C4: when a task with the given id is present, deleting it and
then running the armed undo (before the grace window has discarded the
tombstone, with no intervening mutation) restores the live collection
exactly, the task back at its original position. -/
theorem c4_delete_undo_restores (s : BoardState) (i : String)
    (h : ∃ t ∈ s.tasks, t.id = i) :
    (applyOp (applyOp s (Op.del i)) Op.undoDel).tasks = s.tasks := by
  have hs : (removeFirst (fun t => t.id == i) s.tasks).isSome := by
    refine removeFirst_isSome_of_mem _ _ ?_
    obtain ⟨t, ht, hid⟩ := h
    exact ⟨t, ht, by simp [hid]⟩
  rcases Option.isSome_iff_exists.mp hs with ⟨x, hx⟩
  obtain ⟨a, b, c⟩ := x
  have hins := removeFirst_insertAt (fun t => t.id == i) s.tasks a b c hx
  simp only [applyOp, hx]
  exact hins

/-- Claim C4 witness: the delete/undo round trip on a concrete one-task
collection. -/
theorem c4_delete_undo_witness :
    (∃ t ∈ [todoTask], t.id = "7") ∧
    (applyOp (applyOp { tasks := [todoTask], tomb := none } (Op.del "7"))
      Op.undoDel).tasks = [todoTask] :=
  ⟨by decide,
    c4_delete_undo_restores { tasks := [todoTask], tomb := none } "7" (by decide)⟩

/-! ## Claim C5: undo of a move to done always lands in doing -/

/-- Claim C5: for any present task, whatever its prior status, moving it to
`done` and then running the armed undo leaves it with status `doing` (the
undo closure assigns `task.status = "doing"` unconditionally). -/
theorem c5_move_done_undo_doing (s : BoardState) (i : String)
    (h : (findTask s.tasks i).isSome) :
    (findTask (applyOp (applyOp s (Op.move i "done")) (Op.moveUndo i)).tasks i).map
      Task.status = some "doing" := by
  rcases Option.isSome_iff_exists.mp h with ⟨t0, ht0⟩
  have e1 := findTask_modifyFirst i (fun t => { t with status := "done" })
    (fun _ => rfl) s.tasks
  have e2 := findTask_modifyFirst i (fun t => { t with status := "doing" })
    (fun _ => rfl)
    (modifyFirst (fun t => t.id == i) (fun t => { t with status := "done" }) s.tasks)
  simp only [applyOp]
  rw [e2, e1, ht0]
  rfl

/-- Claim C5 witness: a task whose prior status is `todo` ends with status
`doing`, not `todo`, after move-to-done plus undo. -/
theorem c5_move_done_undo_witness :
    todoTask.status = "todo" ∧
    (findTask (applyOp (applyOp { tasks := [todoTask], tomb := none }
        (Op.move "7" "done")) (Op.moveUndo "7")).tasks "7").map Task.status
      = some "doing" :=
  ⟨by decide,
    c5_move_done_undo_doing { tasks := [todoTask], tomb := none } "7" (by decide)⟩

/-! ## Claim C8: serialization round trip -/

/-- Claim C8: deserializing the persisted serialization of any task
collection yields the collection back field-for-field; in particular every
absent optional field (due, priority, owner) is omitted by serialization
and reads back as absent, never as a placeholder string. -/
theorem c8_roundtrip (ts : List Task) : decodeTasks (encodeTasks ts) = some ts := by
  induction ts with
  | nil => rfl
  | cons t rest ih =>
      have h1 := decodeTask_encodeTask t
      simp only [encodeTasks, decodeTasks, List.map] at ih ⊢
      simp only [decodeList, h1, ih]

/-! ## Claim C9: loading malformed persisted state -/

/-- Claim C9 counterexample: a persisted value that parses as JSON but is
not a task array (here the number 5) is adopted verbatim by the loader,
not replaced by the empty collection; only a parse failure resets. -/
theorem c9_load_counterexample :
    decodeTasks (loadTasks (StoredSlot.parsed (Json.num 5))) = none ∧
    loadTasks (StoredSlot.parsed (Json.num 5)) ≠ Json.arr [] := by
  refine ⟨rfl, fun h => ?_⟩
  exact Json.noConfusion h

/-- Claim C9 (amended): startup loading falls back to the empty collection
exactly when the slot is absent or its contents fail to parse as JSON; the
parse failure is swallowed (the loader is total).  A successfully parsed
value of any shape is adopted verbatim, with no task-array validation. -/
theorem c9_load_amended :
    loadTasks StoredSlot.unparseable = Json.arr [] ∧
    loadTasks StoredSlot.absent = Json.arr [] ∧
    ∀ j, loadTasks (StoredSlot.parsed j) = j :=
  ⟨rfl, rfl, fun _ => rfl⟩

/-! ## Claim C10: the two parser copies agree -/

/-- Claim C10: the shorthand parser of the board page and the one of the
application script are extensionally equal: on every input they return the
same title, due and priority. -/
theorem c10_parsers_agree : ∀ s : List Char, Board.parseInput s = App.parseInput s :=
  fun _ => rfl

/-! ## Injectivity of the id encoding

The source allocates ids with `Date.now().toString()`, i.e. `Nat.repr` of
the timestamp.  Reading a decimal digit string back through `decVal`
recovers the number, so `Nat.repr` is injective. -/

theorem decVal_foldl (a : Nat) :
    ∀ l : List Char, l.foldl (fun x c => x * 10 + digitVal c) a
      = a * 10 ^ l.length + decVal l := by
  intro l
  induction l generalizing a with
  | nil => simp [decVal]
  | cons c t ih =>
      have hstep : decVal (c :: t) = digitVal c * 10 ^ t.length + decVal t := by
        show List.foldl _ (0 * 10 + digitVal c) t = _
        rw [ih (0 * 10 + digitVal c)]
        ring_nf
      show List.foldl _ (a * 10 + digitVal c) t = _
      rw [ih (a * 10 + digitVal c), hstep, List.length_cons, pow_succ]
      ring

theorem decVal_cons (c : Char) (t : List Char) :
    decVal (c :: t) = digitVal c * 10 ^ t.length + decVal t := by
  show List.foldl _ (0 * 10 + digitVal c) t = _
  rw [decVal_foldl (0 * 10 + digitVal c) t]
  ring_nf

theorem digitVal_digitChar (m : Nat) (h : m < 10) :
    digitVal (Nat.digitChar m) = m := by
  interval_cases m <;> rfl

theorem decVal_toDigitsCore :
    ∀ fuel n ds, n < fuel →
      decVal (Nat.toDigitsCore 10 fuel n ds) = n * 10 ^ ds.length + decVal ds := by
  intro fuel
  induction fuel with
  | zero => intro n ds h; omega
  | succ fuel ih =>
      intro n ds h
      rw [Nat.toDigitsCore]
      by_cases h0 : n / 10 = 0
      · rw [if_pos h0]
        have hn : n < 10 := by
          by_contra hc
          push_neg at hc
          have := Nat.div_pos hc (by norm_num)
          omega
        rw [decVal_cons, digitVal_digitChar _ (Nat.mod_lt _ (by norm_num)),
          Nat.mod_eq_of_lt hn]
      · rw [if_neg h0]
        have hpos : 0 < n := by
          rcases Nat.eq_zero_or_pos n with hz | hp
          · rw [hz] at h0; simp at h0
          · exact hp
        have hdiv : n / 10 < n := Nat.div_lt_self hpos (by norm_num)
        have hfuel : n / 10 < fuel := by omega
        rw [ih (n / 10) (Nat.digitChar (n % 10) :: ds) hfuel]
        rw [decVal_cons, digitVal_digitChar _ (Nat.mod_lt _ (by norm_num))]
        have hm : 10 * (n / 10) + n % 10 = n := Nat.div_add_mod n 10
        have key : n / 10 * 10 ^ (ds.length + 1) + n % 10 * 10 ^ ds.length
            = n * 10 ^ ds.length := by
          rw [pow_succ]
          calc n / 10 * (10 ^ ds.length * 10) + n % 10 * 10 ^ ds.length
              = (10 * (n / 10) + n % 10) * 10 ^ ds.length := by ring
            _ = n * 10 ^ ds.length := by rw [hm]
        rw [List.length_cons]
        linarith [key]

theorem decVal_repr (n : Nat) : decVal (Nat.repr n).data = n := by
  show decVal ((Nat.toDigits 10 n).asString).data = n
  rw [Nat.toDigits]
  have h := decVal_toDigitsCore (n + 1) n [] (by omega)
  simpa [decVal] using h

theorem repr_injective (m n : Nat) (h : Nat.repr m = Nat.repr n) : m = n := by
  have := congrArg (fun s : String => decVal s.data) h
  simpa [decVal_repr] using this

/-! ## Preservation of the id bookkeeping invariant -/

theorem isStamp_mono {c c2 : Nat} (h : c ≤ c2) {i : String} :
    isStamp c i → isStamp c2 i :=
  fun ⟨n, hn, hr⟩ => ⟨n, le_trans hn h, hr⟩

theorem idsOf_modifyFirst (p : Task → Bool) (f : Task → Task)
    (hf : ∀ t, (f t).id = t.id) :
    ∀ ts, idsOf (modifyFirst p f ts) = idsOf ts := by
  intro ts
  induction ts with
  | nil => rfl
  | cons t ts0 ih =>
      by_cases hp : p t
      · simp [modifyFirst, hp, idsOf, hf t]
      · simpa [modifyFirst, hp, idsOf] using ih

theorem insertAt_perm : ∀ (i : Nat) (x : Task) (ts : List Task),
    List.Perm (insertAt i x ts) (x :: ts) := by
  intro i
  induction i with
  | zero => intro x ts; exact List.Perm.refl _
  | succ j ih =>
      intro x ts
      cases ts with
      | nil => exact List.Perm.refl _
      | cons t ts2 =>
          exact List.Perm.trans (List.Perm.cons t (ih x ts2)) (List.Perm.swap x t ts2)

theorem InvIds_create (c now : Nat) (d : TaskData) (s : BoardState)
    (hInv : InvIds c s) (hlt : c < now) :
    Nat.repr now ∉ idsOf s.tasks ∧ InvIds now (applyOp s (Op.create d now)) := by
  obtain ⟨hnd, hst, htomb⟩ := hInv
  have hfresh : Nat.repr now ∉ idsOf s.tasks := by
    intro hmem
    obtain ⟨m, hmle, hr⟩ := hst _ hmem
    have := repr_injective m now hr
    omega
  refine ⟨hfresh, ?_, ?_, ?_⟩
  · show (idsOf (s.tasks ++ [mkTask d now])).Nodup
    rw [idsOf, List.map_append, List.nodup_append]
    refine ⟨hnd, by simp, ?_⟩
    intro a ha hb
    simp [mkTask] at hb
    exact hfresh (hb ▸ ha)
  · intro i hi
    simp only [applyOp, idsOf, List.map_append, List.mem_append, List.map_cons,
      List.map_nil, List.mem_singleton, mkTask] at hi
    rcases hi with h | h
    · exact isStamp_mono (le_of_lt hlt) (hst i h)
    · exact ⟨now, le_refl now, h.symm⟩
  · intro t k htk
    obtain ⟨hnotin, hstamp⟩ := htomb t k htk
    constructor
    · intro hmem
      simp only [applyOp, idsOf, List.map_append, List.mem_append, List.map_cons,
        List.map_nil, List.mem_singleton, mkTask] at hmem
      rcases hmem with h | h
      · exact hnotin h
      · obtain ⟨m, hmle, hr⟩ := hstamp
        rw [h] at hr
        have := repr_injective m now hr
        omega
    · exact isStamp_mono (le_of_lt hlt) hstamp

theorem InvIds_modify (c : Nat) (s : BoardState) (p : Task → Bool)
    (f : Task → Task) (hf : ∀ t, (f t).id = t.id) (hInv : InvIds c s) :
    InvIds c { s with tasks := modifyFirst p f s.tasks } := by
  obtain ⟨hnd, hst, htomb⟩ := hInv
  have hid := idsOf_modifyFirst p f hf s.tasks
  refine ⟨?_, ?_, ?_⟩
  · show (idsOf (modifyFirst p f s.tasks)).Nodup
    rw [hid]
    exact hnd
  · intro i hi
    rw [show idsOf (modifyFirst p f s.tasks) = idsOf s.tasks from hid] at hi
    exact hst i hi
  · intro t k htk
    obtain ⟨h1, h2⟩ := htomb t k htk
    refine ⟨?_, h2⟩
    show t.id ∉ idsOf (modifyFirst p f s.tasks)
    rw [hid]
    exact h1

theorem InvIds_del (c : Nat) (s : BoardState) (i : String) (hInv : InvIds c s) :
    InvIds c (applyOp s (Op.del i)) := by
  obtain ⟨hnd, hst, htomb⟩ := hInv
  cases hr : removeFirst (fun t => t.id == i) s.tasks with
  | none =>
      simp only [applyOp, hr]
      exact ⟨hnd, hst, htomb⟩
  | some x =>
      obtain ⟨a, b, rest⟩ := x
      have hins : insertAt b a rest = s.tasks :=
        removeFirst_insertAt (fun t => t.id == i) s.tasks a b rest hr
      have hperm : List.Perm (idsOf s.tasks) (a.id :: idsOf rest) := by
        rw [← hins]
        exact (insertAt_perm b a rest).map Task.id
      have hnd2 : (a.id :: idsOf rest).Nodup := hperm.nodup_iff.mp hnd
      simp only [applyOp, hr]
      refine ⟨?_, ?_, ?_⟩
      · exact (List.nodup_cons.mp hnd2).2
      · intro id2 hid2
        exact hst id2 (hperm.mem_iff.mpr (List.mem_cons_of_mem _ hid2))
      · intro t k htk
        simp only [Option.some.injEq, Prod.mk.injEq] at htk
        obtain ⟨h1, _⟩ := htk
        subst h1
        exact ⟨(List.nodup_cons.mp hnd2).1,
          hst a.id (hperm.mem_iff.mpr (List.mem_cons_self _ _))⟩

theorem InvIds_undoDel (c : Nat) (s : BoardState) (hInv : InvIds c s) :
    InvIds c (applyOp s Op.undoDel) := by
  obtain ⟨hnd, hst, htomb⟩ := hInv
  cases ht : s.tomb with
  | none =>
      simp only [applyOp, ht]
      exact ⟨hnd, hst, htomb⟩
  | some x =>
      obtain ⟨t0, k0⟩ := x
      obtain ⟨hnotin, hstamp⟩ := htomb t0 k0 ht
      have hperm : List.Perm (idsOf (insertAt k0 t0 s.tasks)) (t0.id :: idsOf s.tasks) :=
        (insertAt_perm k0 t0 s.tasks).map Task.id
      simp only [applyOp, ht]
      refine ⟨?_, ?_, ?_⟩
      · exact hperm.nodup_iff.mpr (List.nodup_cons.mpr ⟨hnotin, hnd⟩)
      · intro i hi
        rcases List.mem_cons.mp (hperm.mem_iff.mp hi) with h | h
        · rw [h]; exact hstamp
        · exact hst i h
      · intro t k htk
        exact Option.noConfusion htk

theorem InvIds_trace : ∀ (ops : List Op) (c : Nat) (s : BoardState),
    createsIncreasing c ops = true → InvIds c s →
    InvIds (clockAfter c ops) (applyOps s ops) := by
  intro ops
  induction ops with
  | nil => intro c s _ hInv; exact hInv
  | cons op rest ih =>
      intro c s h hInv
      cases op with
      | create d now =>
          simp only [createsIncreasing] at h
          obtain ⟨h1, h2⟩ := Bool.and_eq_true_iff.mp h
          have hlt : c < now := of_decide_eq_true h1
          have step := InvIds_create c now d s hInv hlt
          exact ih now (applyOp s (Op.create d now)) h2 step.2
      | update i p =>
          simp only [createsIncreasing] at h
          exact ih c _ h (InvIds_modify c s _ (applyPatch p) (fun _ => rfl) hInv)
      | move i st =>
          simp only [createsIncreasing] at h
          exact ih c _ h
            (InvIds_modify c s _ (fun t => { t with status := st }) (fun _ => rfl) hInv)
      | moveUndo i =>
          simp only [createsIncreasing] at h
          exact ih c _ h
            (InvIds_modify c s _ (fun t => { t with status := "doing" }) (fun _ => rfl) hInv)
      | del i =>
          simp only [createsIncreasing] at h
          exact ih c _ h (InvIds_del c s i hInv)
      | undoDel =>
          simp only [createsIncreasing] at h
          exact ih c _ h (InvIds_undoDel c s hInv)

theorem createsIncreasing_append : ∀ (l1 : List Op) (c : Nat) (l2 : List Op),
    createsIncreasing c (l1 ++ l2)
      = (createsIncreasing c l1 && createsIncreasing (clockAfter c l1) l2) := by
  intro l1
  induction l1 with
  | nil => intro c l2; simp [createsIncreasing, clockAfter]
  | cons op rest ih =>
      intro c l2
      cases op with
      | create d now =>
          simp only [List.cons_append, createsIncreasing, clockAfter,
            List.append_eq, ih, Bool.and_assoc]
      | update i p =>
          simp only [List.cons_append, createsIncreasing, clockAfter,
            List.append_eq, ih]
      | move i st =>
          simp only [List.cons_append, createsIncreasing, clockAfter,
            List.append_eq, ih]
      | moveUndo i =>
          simp only [List.cons_append, createsIncreasing, clockAfter,
            List.append_eq, ih]
      | del i =>
          simp only [List.cons_append, createsIncreasing, clockAfter,
            List.append_eq, ih]
      | undoDel =>
          simp only [List.cons_append, createsIncreasing, clockAfter,
            List.append_eq, ih]

theorem InvIds_init : InvIds 0 initState := by
  refine ⟨?_, ?_, ?_⟩
  · simp [initState, idsOf]
  · intro i hi
    simp [initState, idsOf] at hi
  · intro t k htk
    simp [initState] at htk

/-! ## Claim C1: id uniqueness -/

/-- Claim C1 counterexample: two creates observing the same `Date.now()`
value (here 100) allocate the same id `"100"`: at the second create the
allocated id already belongs to a live task, and the resulting collection
violates id uniqueness.  So freshness does not hold for every reachable
state and create call. -/
theorem c1_id_collision_counterexample :
    (mkTask sampleData 100).id
      ∈ idsOf (applyOps initState [Op.create sampleData 100]).tasks ∧
    ¬ (idsOf (applyOps initState
        [Op.create sampleData 100, Op.create sampleData 100]).tasks).Nodup := by
  decide

/-- Claim C1 (amended): provided the `Date.now()` values observed by the
create operations of the trace are strictly increasing (no two creates in
the same millisecond), every create allocates an id distinct from every
live id, and id uniqueness of the live collection is an invariant
established by create and preserved by every operation (create, update,
move, move-undo, delete, delete-undo). -/
theorem c1_unique_ids_amended (ops : List Op)
    (h : createsIncreasing 0 ops = true) :
    (idsOf (applyOps initState ops).tasks).Nodup ∧
    ∀ l1 d now l2, ops = l1 ++ Op.create d now :: l2 →
      Nat.repr now ∉ idsOf (applyOps initState l1).tasks := by
  constructor
  · exact (InvIds_trace ops 0 initState h InvIds_init).1
  · intro l1 d now l2 heq
    subst heq
    rw [createsIncreasing_append] at h
    obtain ⟨h1, h2⟩ := Bool.and_eq_true_iff.mp h
    simp only [createsIncreasing] at h2
    obtain ⟨h3, _⟩ := Bool.and_eq_true_iff.mp h2
    have hlt : clockAfter 0 l1 < now := of_decide_eq_true h3
    have hInv := InvIds_trace l1 0 initState h1 InvIds_init
    exact (InvIds_create _ now d _ hInv hlt).1

/-- Claim C1 witness: the amended statement on a concrete two-create trace
with increasing timestamps. -/
theorem c1_unique_ids_witness :
    createsIncreasing 0 [Op.create sampleData 1, Op.create sampleData 2] = true ∧
    ((idsOf (applyOps initState
        [Op.create sampleData 1, Op.create sampleData 2]).tasks).Nodup ∧
      ∀ l1 d now l2,
        [Op.create sampleData 1, Op.create sampleData 2]
          = l1 ++ Op.create d now :: l2 →
        Nat.repr now ∉ idsOf (applyOps initState l1).tasks) :=
  ⟨by decide, c1_unique_ids_amended _ (by decide)⟩

end Rover
